import Mathlib

/-!
Verification development for the seashell / SHrimp command interpreter
(src/seashell.c and src/dev/**). The definitions below are shallow
embeddings of the C functions they are named after; line references point
into the repository sources.
-/

set_option maxHeartbeats 1000000

namespace Seashell

/-- Constant `MAX_ARGS` from seashell.c:70 and dev/config/macros.h:28; bounds both the
argument vectors and the delay queue's `commands` array. -/
def MAX_ARGS : Nat := 64

/-! ### C `atoi`, as called at seashell.c:403

Skips leading whitespace, accepts one optional sign, then consumes leading
decimal digits; any other string (or no digits) yields 0. -/

/-- Accumulate leading decimal digits, stopping at the first non-digit. -/
def atoiDigits : List Char → Nat → Nat
  | [], acc => acc
  | c :: cs, acc =>
    if c.isDigit then atoiDigits cs (acc * 10 + (c.toNat - '0'.toNat)) else acc

/-- Sign handling of `atoi` after whitespace has been skipped. -/
def atoiSigned : List Char → Int
  | [] => 0
  | '-' :: cs => -(atoiDigits cs 0 : Int)
  | '+' :: cs => (atoiDigits cs 0 : Int)
  | cs => (atoiDigits cs 0 : Int)

/-- C `atoi`. -/
def atoi (s : String) : Int :=
  atoiSigned (s.data.dropWhile Char.isWhitespace)

/-! ### The delay queue (struct DelayedCommand / struct ThreadQueue)

seashell.c:84-100 and the identical dev/delay/delay.c model.  At the value
level an entry is its absolute due time `delay_amt` (seconds), its argument
vector and its background flag; the remaining redirection bookkeeping fields
play no role in queue manipulation. -/

/-- One queued delayed command (struct DelayedCommand, seashell.c:84-96). -/
structure QEntry where
  delay_amt : Int
  args : List String
  background : Nat
deriving DecidableEq, Repr

/-- The insertion scan of `enqueue` (seashell.c:485-501, delay.c:57-73): walk
the existing entries; at the first entry whose `delay_amt` is strictly greater
than the new command's, provided the queue is not at capacity
(`command_amt < MAX_ARGS`, with `amt` the length of the whole queue), shift the
remaining entries back and insert.  Returns `none` when the loop finishes
without inserting. -/
def insertLoop (c : QEntry) (amt : Nat) : List QEntry → Option (List QEntry)
  | [] => none
  | x :: xs =>
    if c.delay_amt < x.delay_amt ∧ amt < MAX_ARGS then
      some (c :: x :: xs)
    else
      (insertLoop c amt xs).map (fun q => x :: q)

/-- Function `enqueue` (seashell.c:466-512, delay.c:38-84): empty queue gets the entry
at slot 0; otherwise run the insertion scan, and if it did not insert, append
at the end provided the queue is below capacity.  A full queue is returned
unchanged (and, as in the C, nothing is reported).  The deep copy of the
argument strings is modelled separately (see `deepCopyArgs`); at the value
level the stored entry equals `c`. -/
def enqueue (c : QEntry) (q : List QEntry) : List QEntry :=
  if q.length = 0 then [c]
  else
    match insertLoop c q.length q with
    | some q2 => q2
    | none => if q.length < MAX_ARGS then q ++ [c] else q

/-- One iteration of the poller loop body after the 1-second sleep
(delay.c:107-132, seashell.c:534-570): if the queue is non-empty and the front
entry's due time has passed (`delay_amt < time(NULL)`, strict), the front entry
is executed and removed and the rest shift forward; otherwise nothing changes.
Returns the matured entry (if any) and the new queue. -/
def pollTick (now : Int) (q : List QEntry) : Option QEntry × List QEntry :=
  match q with
  | [] => (none, [])
  | x :: xs => if x.delay_amt < now then (some x, xs) else (none, x :: xs)

/-- Queue states reachable from the empty queue by `enqueue` and poll ticks. -/
inductive ReachableQueue : List QEntry → Prop where
  | empty : ReachableQueue []
  | enq (c : QEntry) {q : List QEntry} :
      ReachableQueue q → ReachableQueue (enqueue c q)
  | tick (now : Int) {q : List QEntry} :
      ReachableQueue q → ReachableQueue (pollTick now q).2

/-- The ordering invariant of the queue: due times are non-decreasing from
front to back. -/
def sortedByDue (q : List QEntry) : Prop :=
  List.Pairwise (fun a b => a.delay_amt ≤ b.delay_amt) q

/-! ### parse_input (seashell.c:371-433)

The tokens are the result of `strtok` on whitespace.  `parse_input` first
strips a trailing `&` (setting the background flag), then, if the first token
is `delay`, validates the second token with `atoi` and either flags an invalid
delay (`delay = -1`) or enqueues the remaining tokens with due time
`atoi(args[1]) + time(NULL)`.  The result records the `delay` flag, the
background flag, the final argument vector and the resulting queue.

(If the input is the single token `&`, the C dereferences `args[0] == NULL`
after stripping it — undefined behaviour; the model returns the not-delayed
result with an empty vector there.) -/

/-- Result of `parse_input`. -/
structure ParseOut where
  delay : Int
  background : Nat
  args : List String
  queue : List QEntry
deriving DecidableEq, Repr

/-- Function `parse_input` (seashell.c:371-433). -/
def parse_input (tokens : List String) (now : Int) (queue : List QEntry) :
    ParseOut :=
  match tokens with
  | [] => ⟨0, 0, [], queue⟩
  | _ =>
    -- seashell.c:389-394: strip a trailing "&" and set background
    let bg : Nat := if tokens.getLast? = some "&" then 1 else 0
    let stripped : List String :=
      if tokens.getLast? = some "&" then tokens.dropLast else tokens
    match stripped with
    | [] => ⟨0, bg, [], queue⟩
    | t0 :: rest =>
      if t0 = "delay" then
        -- seashell.c:397-432
        match rest with
        | [] => ⟨-1, bg, stripped, queue⟩
        | t1 :: rest2 =>
          let d := atoi t1
          if d ≤ 0 then ⟨-1, bg, stripped, queue⟩
          else
            let due := d + now
            -- seashell.c:411: dead re-check (due = now is impossible as d > 0)
            let flag : Int := if due = now then -1 else 1
            ⟨flag, bg, rest2, enqueue ⟨due, rest2, bg⟩ queue⟩
      else ⟨0, bg, stripped, queue⟩

/-- The only diagnostic the interactive loop prints on the delayed-command
path (seashell.c:208-211): the invalid-delay message when `delay = -1`;
nothing is printed when `delay = 1` (the loop just `continue`s). -/
def delayDiagnostics (p : ParseOut) : List String :=
  if p.delay = -1 then ["delay: provide delay amount in seconds"] else []

/-! ### Piping (dev/exec/pipe.c, seashell.c:667-792)

`check_piping` (pipe.c:41-51, seashell.c:667-677) records the index of the
FIRST `|` token and sets `pipe_flag`; it performs no validation whatsoever.
`pipe_command` (pipe.c:92-176, seashell.c:707-792) then splits the vector at
that single index: `command_1` holds the tokens before it and `command_2`
every token after it up to the first NULL, and forks exactly one child per
side. -/

/-- Function `check_piping`: index of the first `|` token, if any. -/
def findPipe (args : List String) : Option Nat :=
  args.findIdx? (fun t => t = "|")

/-- Number of `|` tokens in the vector. -/
def countPipes (args : List String) : Nat :=
  args.countP (fun t => t = "|")

/-- Array `command_1` of `pipe_command` (pipe.c:102-104,112): the tokens strictly
before the pipe index, in a freshly allocated array. -/
def command_1 (args : List String) (pipedex : Nat) : List String :=
  args.take pipedex

/-- Array `command_2` of `pipe_command` (pipe.c:106-110,113): every token after the
pipe index up to the first NULL, in a freshly allocated array. -/
def command_2 (args : List String) (pipedex : Nat) : List String :=
  args.drop (pipedex + 1)

/-- The stages actually produced for an argument vector: `pipe_command` is
invoked (from `exec_unix_command`) exactly when `check_piping` found a pipe,
and always builds the two stages around the first pipe; without a pipe there
is the single stage `args`.  One child process is forked per stage
(pipe.c:120,139; seashell.c:736,755,903). -/
def pipeStages (args : List String) : List (List String) :=
  match findPipe args with
  | none => [args]
  | some p => [command_1 args p, command_2 args p]

/-! ### Child file-descriptor wiring (pipe.c:124-161, redirect.c:94-125)

We record, in program order, every duplication a child performs onto its
standard input/output descriptors, and the final descriptor state after
replaying them.  `redirect` mutates the argument array it is handed: each
branch reads the filename cell that follows its operator index FROM THE
CURRENT ARRAY and then NULLs the operator cell and the filename cell in place
(redirect.c:102-103, 112-113, 122-123; seashell.c:631-632, 641-642, 651-652),
so a later branch — or a later `redirect` call on the same array — sees the
nulled cells.  `open(NULL)` (and `open` of any unreadable name) returns `-1`;
the branch then closes the standard stream and `dup2(-1, …)` fails, leaving
the stream CLOSED.  We model a successful `open` of a present name as the
named file and an `open` of a NULL name as the closed descriptor.

A child's stage array holds its tokens followed by an explicit NULL
terminator (pipe.c:112-113); the model reads every out-of-range index as NULL
as well, where the C would read indeterminate `malloc` memory past the
terminator — no theorem below depends on such a position. -/

/-- What a standard descriptor can be wired to; `closed` is the state left
behind when `open` failed (`dup2(-1, …)` does nothing after the stream was
closed). -/
inductive Src where
  | term_in : Src
  | term_out : Src
  | pipe_rd : Src
  | pipe_wr : Src
  | file : String → Src
  | closed : Src
deriving DecidableEq, Repr

/-- A `dup2` onto standard input or standard output (or the failed-`open`
close of that stream, for `closed`). -/
inductive FdOp where
  | dupIn : Src → FdOp
  | dupOut : Src → FdOp
deriving DecidableEq, Repr

/-- The two standard stream descriptors of a child. -/
structure FdState where
  stdin : Src
  stdout : Src
deriving DecidableEq, Repr

/-- Effect of one duplication. -/
def applyOp (s : FdState) : FdOp → FdState
  | .dupIn v => { s with stdin := v }
  | .dupOut v => { s with stdout := v }

/-- Replay a sequence of duplications. -/
def applyOps (s : FdState) (ops : List FdOp) : FdState :=
  ops.foldl applyOp s

/-- Descriptors as inherited from the shell. -/
def initFds : FdState := ⟨Src.term_in, Src.term_out⟩

/-- Read of cell `i` of a stage array whose cells may have been nulled:
`none` models reading a NULL (a nulled cell, the terminator, or an
out-of-range slot — see the section comment on the latter). -/
def cellAt (args : List (Option String)) (i : Int) : Option String :=
  if i < 0 then none else (args.get? i.toNat).getD none

/-- In-place nulling of cell `i` (`args[i] = NULL`); out-of-range writes are
dropped (the C would scribble past the array — not exercised below). -/
def setNullCell (args : List (Option String)) (i : Int) : List (Option String) :=
  if i < 0 then args else args.set i.toNat none

/-- Result of `open` on the cell contents: a present name opens the file; a
NULL name makes `open` fail, and after `close(stream); dup2(-1, stream)` the
stream is left closed. -/
def openSrc (f : Option String) : Src :=
  match f with
  | some s => Src.file s
  | none => Src.closed

/-- One `redirect` call (redirect.c:94-125, seashell.c:623-654): for each
flagged direction in order — input, then output, then append — read the
filename cell after the operator index from the current array, duplicate the
opened descriptor onto the matching standard stream, and NULL the operator
and filename cells in place.  Returns the duplications in program order and
the mutated array. -/
def redirectOps (args : List (Option String)) (inr outr appr : Nat)
    (idx odx adx : Int) : List FdOp × List (Option String) :=
  let s1 : List FdOp × List (Option String) :=
    if inr = 1 then
      ([FdOp.dupIn (openSrc (cellAt args (idx + 1)))],
        setNullCell (setNullCell args idx) (idx + 1))
    else ([], args)
  let s2 : List FdOp × List (Option String) :=
    if outr = 1 then
      (s1.1 ++ [FdOp.dupOut (openSrc (cellAt s1.2 (odx + 1)))],
        setNullCell (setNullCell s1.2 odx) (odx + 1))
    else s1
  if appr = 1 then
    (s2.1 ++ [FdOp.dupOut (openSrc (cellAt s2.2 (adx + 1)))],
      setNullCell (setNullCell s2.2 adx) (adx + 1))
  else s2

/-- Struct `SHrimpCommand` (dev/types/types.h:42-52) plus the `pipe_flag`/`pipedex`
fields used by pipe.c (the seashell.c revision keeps them in the same
variables). -/
structure SHrimpCommand where
  args : List String
  background : Nat
  input_redirect : Nat
  output_redirect : Nat
  append_redirect : Nat
  index : Int
  outdex : Int
  appenddex : Int
  pipe_flag : Nat
  pipedex : Nat
deriving DecidableEq, Repr

/-- Duplications of the first child of `pipe_command` (pipe.c:124-137), in
program order: first `dup2(fd[1], STDOUT_FILENO)`, then — only if input
redirection applies before the pipe — the `redirect` call on `command_1`,
which receives ALL of the command's flags and the unshifted `outdex` /
`appenddex` (pipe.c:130-131). -/
def child1Ops (c : SHrimpCommand) : List FdOp :=
  FdOp.dupOut Src.pipe_wr ::
    (if c.input_redirect = 1 ∧ c.index < (c.pipedex : Int) then
      (redirectOps ((command_1 c.args c.pipedex).map some) c.input_redirect
        c.output_redirect c.append_redirect c.index c.outdex c.appenddex).1
    else [])

/-- The second child of `pipe_command` (pipe.c:143-161), in program order:
first `dup2(fd[0], STDIN_FILENO)`, then the `redirect` call for output (with
`outdex - offset`, `offset = pipedex + 1`) when it points past the pipe, then
the `redirect` call for append (with `appenddex - offset`) likewise — both
calls receive ALL of the command's flags, and the second call operates on the
array as mutated by the first.  Returns the duplications and the final
array. -/
def child2Run (c : SHrimpCommand) : List FdOp × List (Option String) :=
  let cells0 : List (Option String) := (command_2 c.args c.pipedex).map some
  let r1 : List FdOp × List (Option String) :=
    if c.output_redirect = 1 ∧ (c.pipedex : Int) < c.outdex then
      redirectOps cells0 c.input_redirect c.output_redirect c.append_redirect
        c.index (c.outdex - ((c.pipedex : Int) + 1)) c.appenddex
    else ([], cells0)
  let r2 : List FdOp × List (Option String) :=
    if c.append_redirect = 1 ∧ (c.pipedex : Int) < c.appenddex then
      redirectOps r1.2 c.input_redirect c.output_redirect c.append_redirect
        c.index c.outdex (c.appenddex - ((c.pipedex : Int) + 1))
    else ([], r1.2)
  (FdOp.dupIn Src.pipe_rd :: (r1.1 ++ r2.1), r2.2)

/-- Duplications of the second child of `pipe_command`, in program order. -/
def child2Ops (c : SHrimpCommand) : List FdOp :=
  (child2Run c).1

/-- A duplication wiring a pipe end onto a standard stream. -/
def isPipeDup : FdOp → Bool
  | .dupIn Src.pipe_rd => true
  | .dupOut Src.pipe_wr => true
  | _ => false

/-- A duplication arising from file redirection: an opened file, or the
closed stream a failed `open` leaves behind. -/
def isFileDup : FdOp → Bool
  | .dupIn (Src.file _) => true
  | .dupOut (Src.file _) => true
  | .dupIn Src.closed => true
  | .dupOut Src.closed => true
  | _ => false

/-- The ordering asserted by the specification: every file-redirection
duplication happens before every pipe-driven duplication. -/
def redirAppliedBeforePipe (ops : List FdOp) : Prop :=
  ∀ i j : Fin ops.length,
    isFileDup (ops.get i) = true → isPipeDup (ops.get j) = true →
      (i : Nat) < (j : Nat)

instance (ops : List FdOp) : Decidable (redirAppliedBeforePipe ops) := by
  unfold redirAppliedBeforePipe
  infer_instance

/-! ### The string heap and `enqueue`'s deep copy (seashell.c:476-509,
delay.c:48-80)

To make pointer aliasing observable we give the strings a heap: an address is
an index into a list of string cells, allocation appends a cell at the end,
`strdup` allocates a fresh cell holding a copy of the value read at its
argument.  `enqueue` copies the caller's argument vector by running `strdup`
on each of its `token_counter` pointers in order. -/

/-- The string heap: cell `a` of `h` holds `h[a]`; an address is an index
into the heap. -/
abbrev Heap := List String

/-- Dereference a string pointer. -/
def readH (h : Heap) (a : Nat) : String :=
  h.getD a ""

/-- Overwrite (or reuse after free) the cell at `a`. -/
def writeH (h : Heap) (a : Nat) (v : String) : Heap :=
  h.set a v

/-- C `strdup(p)`: allocate a fresh cell holding a copy of `*p` and return its
address. -/
def strdupH (h : Heap) (a : Nat) : Heap × Nat :=
  (h ++ [readH h a], h.length)

/-- The copy loop of `enqueue` (seashell.c:479-481, 495-497, 506-508):
`strdup` each caller pointer in order into the fresh argument array. -/
def deepCopyArgs (h : Heap) : List Nat → Heap × List Nat
  | [] => (h, [])
  | a :: as =>
    let h1 := (strdupH h a).1
    let a2 := (strdupH h a).2
    let h2 := (deepCopyArgs h1 as).1
    let as2 := (deepCopyArgs h1 as).2
    (h2, a2 :: as2)

/-! ### The queued entry's argument array cells (seashell.c:478-481,
delay.c:50-53)

`enqueue` obtains the array with `malloc(MAX_ARGS * sizeof(char *))` — all 64
cells indeterminate — and then writes a `strdup` pointer into cells
`0 .. token_counter-1` only.  No NULL terminator is ever stored, although the
poller's free loop (delay.c:120, seashell.c:558) and `execvp` both scan the
array for one. -/

/-- One `char *` slot of the queued argument array. -/
inductive ArgCell where
  | uninit : ArgCell
  | nullp : ArgCell
  | strPtr : Nat → ArgCell
deriving DecidableEq, Repr

/-- The queued entry's argument array right after `enqueue`'s copy loop, for a
command of `n` tokens whose string copies live at `base`, `base+1`, ….
Cells `0 .. n-1` hold the `strdup` results; every other cell still holds
whatever `malloc` returned. -/
def freshArgArray (base : Nat) (n : Nat) : List ArgCell :=
  (List.range MAX_ARGS).map
    (fun i => if i < n then ArgCell.strPtr (base + i) else ArgCell.uninit)

/-- Index of the NULL terminator the consumers scan for (delay.c:120,
seashell.c:558, and `execvp`'s argv contract). -/
def nullTerminatorIdx (cells : List ArgCell) : Option Nat :=
  cells.findIdx? (fun cell => cell = ArgCell.nullp)

/-! ## Lemmas about the insertion scan -/

/-- A successful insertion implies the capacity test inside the loop passed. -/
theorem insertLoop_some_lt_max (c : QEntry) (amt : Nat) :
    ∀ {q q2 : List QEntry}, insertLoop c amt q = some q2 → amt < MAX_ARGS := by
  intro q
  induction q with
  | nil => intro q2 h; simp [insertLoop] at h
  | cons x xs ih =>
    intro q2 h
    by_cases hc : c.delay_amt < x.delay_amt ∧ amt < MAX_ARGS
    · exact hc.2
    · simp only [insertLoop, if_neg hc] at h
      rcases Option.map_eq_some'.mp h with ⟨q3, hq3, _⟩
      exact ih hq3

/-- Every member of the queue returned by a successful insertion is the new
entry or an old member. -/
theorem insertLoop_mem (c : QEntry) (amt : Nat) :
    ∀ {q q2 : List QEntry}, insertLoop c amt q = some q2 →
      ∀ y ∈ q2, y = c ∨ y ∈ q := by
  intro q
  induction q with
  | nil => intro q2 h; simp [insertLoop] at h
  | cons x xs ih =>
    intro q2 h y hy
    by_cases hc : c.delay_amt < x.delay_amt ∧ amt < MAX_ARGS
    · simp only [insertLoop, if_pos hc, Option.some.injEq] at h
      subst h
      rcases List.mem_cons.mp hy with rfl | hy
      · exact Or.inl rfl
      · exact Or.inr hy
    · simp only [insertLoop, if_neg hc] at h
      rcases Option.map_eq_some'.mp h with ⟨q3, hq3, hq⟩
      subst hq
      rcases List.mem_cons.mp hy with rfl | hy
      · exact Or.inr (List.mem_cons.mpr (Or.inl rfl))
      · rcases ih hq3 y hy with h1 | h1
        · exact Or.inl h1
        · exact Or.inr (List.mem_cons_of_mem x h1)

/-- A successful insertion preserves the ordering invariant. -/
theorem insertLoop_sorted (c : QEntry) (amt : Nat) :
    ∀ {q q2 : List QEntry}, sortedByDue q → insertLoop c amt q = some q2 →
      sortedByDue q2 := by
  intro q
  induction q with
  | nil => intro q2 _ h; simp [insertLoop] at h
  | cons x xs ih =>
    intro q2 hs h
    obtain ⟨hx, hxs⟩ := List.pairwise_cons.mp hs
    by_cases hc : c.delay_amt < x.delay_amt ∧ amt < MAX_ARGS
    · simp only [insertLoop, if_pos hc, Option.some.injEq] at h
      subst h
      refine List.Pairwise.cons ?_ hs
      intro y hy
      rcases List.mem_cons.mp hy with rfl | hy
      · exact le_of_lt hc.1
      · exact le_trans (le_of_lt hc.1) (hx y hy)
    · simp only [insertLoop, if_neg hc] at h
      rcases Option.map_eq_some'.mp h with ⟨q3, hq3, hq⟩
      subst hq
      have hamt : amt < MAX_ARGS := insertLoop_some_lt_max c amt hq3
      have hxc : x.delay_amt ≤ c.delay_amt := by
        by_contra hlt
        exact hc ⟨lt_of_not_le hlt, hamt⟩
      refine List.Pairwise.cons ?_ (ih hxs hq3)
      intro y hy
      rcases insertLoop_mem c amt hq3 y hy with h1 | h1
      · exact h1 ▸ hxc
      · exact hx y h1

/-- When the scan inserts nothing although the queue is below capacity, every
existing entry's due time is at most the new one's. -/
theorem insertLoop_none_le (c : QEntry) (amt : Nat) :
    ∀ {q : List QEntry}, insertLoop c amt q = none → amt < MAX_ARGS →
      ∀ y ∈ q, y.delay_amt ≤ c.delay_amt := by
  intro q
  induction q with
  | nil => intro _ _ y hy; simp at hy
  | cons x xs ih =>
    intro h hamt y hy
    by_cases hc : c.delay_amt < x.delay_amt ∧ amt < MAX_ARGS
    · simp [insertLoop, if_pos hc] at h
    · simp only [insertLoop, if_neg hc, Option.map_eq_none'] at h
      have hxc : x.delay_amt ≤ c.delay_amt := by
        by_contra hlt
        exact hc ⟨lt_of_not_le hlt, hamt⟩
      rcases List.mem_cons.mp hy with rfl | hy
      · exact hxc
      · exact ih h hamt y hy

/-- Lemma: `enqueue` preserves the ordering invariant. -/
theorem enqueue_sorted (c : QEntry) {q : List QEntry} (hq : sortedByDue q) :
    sortedByDue (enqueue c q) := by
  unfold enqueue
  by_cases h0 : q.length = 0
  · simp only [if_pos h0]
    exact List.pairwise_singleton _ _
  · simp only [if_neg h0]
    cases heq : insertLoop c q.length q with
    | some q2 => exact insertLoop_sorted c q.length hq heq
    | none =>
      by_cases hl : q.length < MAX_ARGS
      · simp only [if_pos hl]
        refine List.pairwise_append.mpr ⟨hq, List.pairwise_singleton _ _, ?_⟩
        intro y hy z hz
        rw [List.mem_singleton.mp hz]
        exact insertLoop_none_le c q.length heq hl y hy
      · simp only [if_neg hl]
        exact hq

/-- A poll tick preserves the ordering invariant. -/
theorem pollTick_sorted (now : Int) {q : List QEntry} (hq : sortedByDue q) :
    sortedByDue (pollTick now q).2 := by
  cases q with
  | nil => exact hq
  | cons x xs =>
    unfold pollTick
    by_cases h : x.delay_amt < now
    · simp only [if_pos h]
      exact (List.pairwise_cons.mp hq).2
    · simp only [if_neg h]
      exact hq

/-- C1: every sequence of enqueue and poll-tick operations starting from the
empty delay queue keeps the queue sorted ascending by due time: for any two
queued items at indices `i < j`, `due_at[i] ≤ due_at[j]`. -/
theorem delay_queue_always_sorted (q : List QEntry) (hq : ReachableQueue q) :
    sortedByDue q := by
  induction hq with
  | empty => exact List.Pairwise.nil
  | enq c hr ih => exact enqueue_sorted c ih
  | tick now hr ih => exact pollTick_sorted now ih

/-- Witness for C1 at a concrete reachable state: two enqueues and one tick. -/
theorem delay_queue_always_sorted_witness :
    sortedByDue
      (pollTick 10
        (enqueue ⟨7, ["sleep", "5"], 0⟩ (enqueue ⟨3, ["echo", "hi"], 0⟩ []))).2 :=
  delay_queue_always_sorted _
    (ReachableQueue.tick 10
      (ReachableQueue.enq _ (ReachableQueue.enq _ ReachableQueue.empty)))

/-- C5: on every poll tick at most one queued entry is matured; when one is,
it is the front entry and the current time is strictly greater than its due
time; and a tick at which the current time equals the front entry's due time
matures nothing. -/
theorem poll_tick_matures_at_most_front (now : Int) (q : List QEntry) :
    ((pollTick now q).1 = none ∧ (pollTick now q).2 = q ∨
      ∃ e t, q = e :: t ∧ e.delay_amt < now ∧ pollTick now q = (some e, t)) ∧
    (∀ e t, q = e :: t → e.delay_amt = now → pollTick now q = (none, q)) := by
  cases q with
  | nil =>
    refine ⟨Or.inl ⟨rfl, rfl⟩, ?_⟩
    intro e t ht
    exact absurd ht (by simp)
  | cons x xs =>
    constructor
    · by_cases h : x.delay_amt < now
      · exact Or.inr ⟨x, xs, rfl, h, by simp [pollTick, if_pos h]⟩
      · exact Or.inl (by simp [pollTick, if_neg h])
    · intro e t ht heq
      cases ht
      simp [pollTick, heq, lt_irrefl]

/-- Witness for C5: a tick whose time equals the front due time changes
nothing. -/
theorem poll_tick_matures_at_most_front_witness :
    pollTick 5 [⟨5, ["echo"], 0⟩] = (none, [⟨5, ["echo"], 0⟩]) :=
  (poll_tick_matures_at_most_front 5 [⟨5, ["echo"], 0⟩]).2 _ _ rfl rfl

/-! ## Evaluation lemmas for the delayed-command parse path -/

/-- Evaluation of `parse_input` on `delay d rest` without a trailing `&`. -/
theorem parse_input_delay_eq (d : String) (rest : List String) (now : Int)
    (q : List QEntry) (hl : ("delay" :: d :: rest).getLast? ≠ some "&") :
    parse_input ("delay" :: d :: rest) now q =
      if atoi d ≤ 0 then ⟨-1, 0, "delay" :: d :: rest, q⟩
      else ⟨if atoi d + now = now then -1 else 1, 0, rest,
        enqueue ⟨atoi d + now, rest, 0⟩ q⟩ := by
  simp only [parse_input, if_neg hl]
  simp

/-- Evaluation of `parse_input` on `delay d mid &`: the trailing `&` is
stripped and the background flag set before the delay prefix is examined. -/
theorem parse_input_delay_amp_eq (d : String) (mid : List String) (now : Int)
    (q : List QEntry) :
    parse_input ("delay" :: d :: (mid ++ ["&"])) now q =
      if atoi d ≤ 0 then ⟨-1, 1, "delay" :: d :: mid, q⟩
      else ⟨if atoi d + now = now then -1 else 1, 1, mid,
        enqueue ⟨atoi d + now, mid, 1⟩ q⟩ := by
  have hlast : ("delay" :: d :: (mid ++ ["&"])).getLast? = some "&" := by
    rw [show ("delay" :: d :: (mid ++ ["&"])) = ("delay" :: d :: mid) ++ ["&"]
      by simp]
    exact List.getLast?_concat _
  have hdrop : ("delay" :: d :: (mid ++ ["&"])).dropLast = "delay" :: d :: mid := by
    rw [show ("delay" :: d :: (mid ++ ["&"])) = ("delay" :: d :: mid) ++ ["&"]
      by simp]
    exact List.dropLast_concat
  simp only [parse_input, hlast, hdrop, if_pos rfl]
  simp


/-- C7 counterexample: a delay offset token of exactly `0` is NOT accepted —
`parse_input` flags it invalid (`delay = -1`, the generic invalid-delay
diagnostic) and enqueues nothing (seashell.c:405-406). -/
theorem delay_zero_rejected :
    (parse_input ["delay", "0", "echo", "hi"] 100 []).delay = -1 ∧
    (parse_input ["delay", "0", "echo", "hi"] 100 []).queue = [] ∧
    delayDiagnostics (parse_input ["delay", "0", "echo", "hi"] 100 []) =
      ["delay: provide delay amount in seconds"] := by decide

/-- C7 amended: every delay offset token whose `atoi` value is non-positive —
zero, negative, and every non-numeric token (which `atoi` maps to 0) — is
rejected with the one invalid-delay diagnostic and nothing is enqueued; there
is no separate negative-delay error.  Only a strictly positive offset is
accepted, enqueued with due time `now + offset`. -/
theorem delay_offset_validation (d : String) (rest : List String) (now : Int)
    (q : List QEntry) (hl : ("delay" :: d :: rest).getLast? ≠ some "&") :
    (atoi d ≤ 0 →
      parse_input ("delay" :: d :: rest) now q =
        ⟨-1, 0, "delay" :: d :: rest, q⟩ ∧
      delayDiagnostics (parse_input ("delay" :: d :: rest) now q) =
        ["delay: provide delay amount in seconds"]) ∧
    (0 < atoi d →
      parse_input ("delay" :: d :: rest) now q =
        ⟨1, 0, rest, enqueue ⟨atoi d + now, rest, 0⟩ q⟩ ∧
      delayDiagnostics (parse_input ("delay" :: d :: rest) now q) = []) := by
  rw [parse_input_delay_eq d rest now q hl]
  constructor
  · intro hle
    rw [if_pos hle]
    exact ⟨rfl, rfl⟩
  · intro hpos
    have hne : ¬ atoi d ≤ 0 := not_le.mpr hpos
    have hflag : ¬ atoi d + now = now := by omega
    rw [if_neg hne, if_neg hflag]
    exact ⟨rfl, rfl⟩

/-- Witness for C7 amended, at `delay 2 echo hi` and at `delay 0 x`. -/
theorem delay_offset_validation_witness :
    (parse_input ["delay", "2", "echo", "hi"] 50 [] =
      ⟨1, 0, ["echo", "hi"], enqueue ⟨atoi "2" + 50, ["echo", "hi"], 0⟩ []⟩) ∧
    (parse_input ["delay", "0", "x"] 50 [] =
      ⟨-1, 0, ["delay", "0", "x"], []⟩) :=
  ⟨((delay_offset_validation "2" ["echo", "hi"] 50 [] (by decide)).2
      (by decide)).1,
   ((delay_offset_validation "0" ["x"] 50 [] (by decide)).1 (by decide)).1⟩

/-- C10 counterexample: for the input `delay 5 echo & &` — which begins with
the delay keyword and ends with the background marker — the enqueued entry has
background 1 but its argument vector still contains a `&` token (the interior
one); only the trailing marker is stripped. -/
theorem delay_background_interior_amp_kept :
    (parse_input ["delay", "5", "echo", "&", "&"] 100 []).queue =
      [⟨105, ["echo", "&"], 1⟩] ∧
    (⟨105, ["echo", "&"], 1⟩ : QEntry).background = 1 ∧
    "&" ∈ (⟨105, ["echo", "&"], 1⟩ : QEntry).args := by decide

/-- C10 amended: for every input `delay d mid... &` with a strictly positive
offset, `parse_input` strips the trailing `&` and sets the background flag
before examining the delay prefix, and enqueues exactly the tokens between the
delay prefix and the trailing marker, with background 1 (so the trailing `&`
itself is never enqueued; an interior `&` token of the command body is kept). -/
theorem delay_trailing_amp_stripped (d : String) (mid : List String)
    (now : Int) (q : List QEntry) (hd : 0 < atoi d) :
    parse_input ("delay" :: d :: (mid ++ ["&"])) now q =
      ⟨1, 1, mid, enqueue ⟨atoi d + now, mid, 1⟩ q⟩ := by
  rw [parse_input_delay_amp_eq d mid now q]
  have hne : ¬ atoi d ≤ 0 := not_le.mpr hd
  have hflag : ¬ atoi d + now = now := by omega
  rw [if_neg hne, if_neg hflag]

/-- Witness for C10 amended at `delay 5 echo hi &`. -/
theorem delay_trailing_amp_stripped_witness :
    parse_input ("delay" :: "5" :: (["echo", "hi"] ++ ["&"])) 100 [] =
      ⟨1, 1, ["echo", "hi"], enqueue ⟨atoi "5" + 100, ["echo", "hi"], 1⟩ []⟩ :=
  delay_trailing_amp_stripped "5" ["echo", "hi"] 100 [] (by decide)

/-! ## Full-queue behaviour of `enqueue` (C8) -/

/-- When the capacity test fails the insertion scan can never insert. -/
theorem insertLoop_none_of_full (c : QEntry) (amt : Nat)
    (hamt : ¬ amt < MAX_ARGS) :
    ∀ q : List QEntry, insertLoop c amt q = none := by
  intro q
  induction q with
  | nil => rfl
  | cons x xs ih =>
    have hc : ¬ (c.delay_amt < x.delay_amt ∧ amt < MAX_ARGS) := by
      intro h
      exact hamt h.2
    simp only [insertLoop, if_neg hc, ih, Option.map_none']

/-- Lemma: `enqueue` on a queue at capacity returns the queue unchanged. -/
theorem enqueue_at_capacity (c : QEntry) (q : List QEntry)
    (hq : MAX_ARGS ≤ q.length) : enqueue c q = q := by
  have h0 : ¬ q.length = 0 := by
    intro h
    rw [h] at hq
    exact absurd hq (by decide)
  have hfull : ¬ q.length < MAX_ARGS := not_lt.mpr hq
  unfold enqueue
  rw [if_neg h0, insertLoop_none_of_full c q.length hfull q, if_neg hfull]

/-- A queue already at capacity (64 entries). -/
def fullQueue : List QEntry :=
  List.replicate MAX_ARGS ⟨0, ["x"], 0⟩

/-- C8 counterexample: enqueueing `delay 5 echo` into a full queue leaves the
queue unchanged — but NO diagnostic is produced anywhere on this path:
`enqueue` is `void` with no output and the interactive loop prints nothing
when `delay = 1`.  The drop is silent, contradicting the claimed report. -/
theorem full_queue_drop_unreported :
    (parse_input ["delay", "5", "echo"] 100 fullQueue).queue = fullQueue ∧
    delayDiagnostics (parse_input ["delay", "5", "echo"] 100 fullQueue) = [] := by
  decide

/-- C8 amended: whenever `enqueue` is called while the delay queue is at
capacity the new entry is not inserted and the queue is unchanged, and the
failure is silently dropped: no diagnostic is produced (neither by `enqueue`,
which reports nothing, nor by the interactive loop, which prints nothing when
`delay = 1`). -/
theorem full_queue_silent_drop (d : String) (rest : List String) (now : Int)
    (q : List QEntry) (hq : MAX_ARGS ≤ q.length)
    (hl : ("delay" :: d :: rest).getLast? ≠ some "&") (hd : 0 < atoi d) :
    enqueue ⟨atoi d + now, rest, 0⟩ q = q ∧
    (parse_input ("delay" :: d :: rest) now q).queue = q ∧
    delayDiagnostics (parse_input ("delay" :: d :: rest) now q) = [] := by
  have henq := enqueue_at_capacity ⟨atoi d + now, rest, 0⟩ q hq
  rw [parse_input_delay_eq d rest now q hl]
  have hne : ¬ atoi d ≤ 0 := not_le.mpr hd
  have hflag : ¬ atoi d + now = now := by omega
  rw [if_neg hne, if_neg hflag]
  exact ⟨henq, henq, rfl⟩

/-- Witness for C8 amended at the concrete full queue. -/
theorem full_queue_silent_drop_witness :
    enqueue ⟨atoi "7" + 100, ["ls"], 0⟩ fullQueue = fullQueue ∧
    (parse_input ["delay", "7", "ls"] 100 fullQueue).queue = fullQueue ∧
    delayDiagnostics (parse_input ["delay", "7", "ls"] 100 fullQueue) = [] :=
  full_queue_silent_drop "7" ["ls"] 100 fullQueue (by decide) (by decide)
    (by decide)


/-- C2 counterexample: the argument vector `a | b | c` has valid pipe
placement (no pipe first or last) and two pipe tokens, yet the builder
produces 2 stages — splitting only at the FIRST pipe, leaving the second `|`
inside stage 2 — not `1 + 2 = 3` stages. -/
theorem two_pipes_still_two_stages :
    pipeStages ["a", "|", "b", "|", "c"] = [["a"], ["b", "|", "c"]] ∧
    (pipeStages ["a", "|", "b", "|", "c"]).length = 2 ∧
    1 + countPipes ["a", "|", "b", "|", "c"] = 3 ∧
    (["a", "|", "b", "|", "c"] : List String).head? ≠ some "|" ∧
    (["a", "|", "b", "|", "c"] : List String).getLast? ≠ some "|" := by decide

/-- C2 amended: for every argument vector in which `check_piping` finds a pipe
token, the builder splits at the FIRST pipe into exactly two stages — the
tokens before it and every token after it (including any further pipe
tokens) — so the stage count is always 2, which equals `1 + (number of pipe
tokens)` exactly when the vector contains a single pipe token. -/
theorem pipe_split_first_pipe_two_stages (args : List String) (p : Nat)
    (hp : findPipe args = some p) :
    pipeStages args = [command_1 args p, command_2 args p] ∧
    command_1 args p = args.take p ∧
    command_2 args p = args.drop (p + 1) ∧
    (pipeStages args).length = 2 ∧
    (countPipes args = 1 → (pipeStages args).length = 1 + countPipes args) := by
  unfold pipeStages
  rw [hp]
  refine ⟨rfl, rfl, rfl, rfl, ?_⟩
  intro h
  rw [h]
  rfl

/-- Witness for C2 amended at `cat f | wc`. -/
theorem pipe_split_first_pipe_two_stages_witness :
    pipeStages ["cat", "f", "|", "wc"] =
      [command_1 ["cat", "f", "|", "wc"] 2, command_2 ["cat", "f", "|", "wc"] 2] ∧
    command_1 ["cat", "f", "|", "wc"] 2 = (["cat", "f", "|", "wc"] : List String).take 2 ∧
    command_2 ["cat", "f", "|", "wc"] 2 = (["cat", "f", "|", "wc"] : List String).drop (2 + 1) ∧
    (pipeStages ["cat", "f", "|", "wc"]).length = 2 ∧
    (countPipes ["cat", "f", "|", "wc"] = 1 →
      (pipeStages ["cat", "f", "|", "wc"]).length =
        1 + countPipes ["cat", "f", "|", "wc"]) :=
  pipe_split_first_pipe_two_stages ["cat", "f", "|", "wc"] 2 (by decide)

/-- C3: evaluating the code on the failing input `| echo hi` — `check_piping`
records the leading pipe (index 0) without any error, and `pipe_command`
builds two stages and forks two children, the first with an EMPTY argument
vector (its `execvp` then fails inside the child); likewise a trailing pipe
yields an empty second stage.  No invalid-pipe-placement rejection happens and
processes are spawned. -/
theorem leading_pipe_not_rejected :
    findPipe ["|", "echo", "hi"] = some 0 ∧
    pipeStages ["|", "echo", "hi"] = [[], ["echo", "hi"]] ∧
    (pipeStages ["|", "echo", "hi"]).length = 2 ∧
    findPipe ["echo", "hi", "|"] = some 2 ∧
    pipeStages ["echo", "hi", "|"] = [["echo", "hi"], []] ∧
    (pipeStages ["echo", "hi", "|"]).length = 2 := by decide

/-- Concrete two-stage command `a | b > o` for the redirection-order
counterexample: output redirection (`outdex = 3`) past the pipe
(`pipedex = 1`), no other redirection. -/
def pipeOutRedirCmd : SHrimpCommand :=
  ⟨["a", "|", "b", ">", "o"], 0, 0, 1, 0, -1, 3, -1, 1, 1⟩

/-- Concrete two-stage pipeline `cat < in | wc > out` with redirection at
both endpoints: `index = 1` (before the pipe at `pipedex = 3`) and
`outdex = 5` (past it); both children share this one flag set. -/
def mixedEndpointCmd : SHrimpCommand :=
  ⟨["cat", "<", "in", "|", "wc", ">", "out"], 0, 1, 1, 0, 1, 5, -1, 1, 3⟩

/-- C6 counterexample: in the second child of `pipe_command` for `a | b > o`,
the pipe-driven duplication (`dup2(fd[0], STDIN_FILENO)`, pipe.c:145) comes
FIRST and the file redirection duplication second — the redirection spec is
not applied before the pipe-driven duplication. -/
theorem pipe_dup_precedes_redirect :
    child2Ops pipeOutRedirCmd =
      [FdOp.dupIn Src.pipe_rd, FdOp.dupOut (Src.file "o")] ∧
    ¬ redirAppliedBeforePipe (child2Ops pipeOutRedirCmd) := by decide

/-- C6 amended: each child of a two-stage pipeline applies its redirection
spec AFTER the pipe-driven duplication — the pipe duplication is the first
operation of either child, unconditionally (`c0` below is arbitrary).
Explicit file redirection is in effect at an endpoint in the final
descriptor state exactly when that endpoint's redirection is the only
redirection flag of the pipeline: a first stage whose flag set carries only
input redirection (before the pipe, naming file `f1`) ends with standard
input `f1` and standard output the pipe; a last stage whose flag set carries
only output (resp. only append) redirection past the pipe ends with standard
input the pipe and standard output the named file.  With redirection at BOTH
endpoints the shared flag set makes the second child's single `redirect` call
rerun the input branch against its own stage: for `cat < in | wc > out` the
second child opens `out` read-only onto standard input (clobbering the pipe)
and nulls the cells in place, so the output branch then opens NULL and
leaves standard output CLOSED — output redirection is not in effect there. -/
theorem redirect_after_pipe_dup_endpoint_effects
    (c0 c1 c2 c3 : SHrimpCommand) (f1 f2 f3 : String)
    (h11 : c1.input_redirect = 1) (h12 : c1.index < (c1.pipedex : Int))
    (h13 : c1.output_redirect ≠ 1) (h14 : c1.append_redirect ≠ 1)
    (h15 : cellAt ((command_1 c1.args c1.pipedex).map some) (c1.index + 1) =
      some f1)
    (h21 : c2.output_redirect = 1) (h22 : (c2.pipedex : Int) < c2.outdex)
    (h23 : c2.input_redirect ≠ 1) (h24 : c2.append_redirect ≠ 1)
    (h25 : cellAt ((command_2 c2.args c2.pipedex).map some)
      (c2.outdex - (c2.pipedex : Int)) = some f2)
    (h31 : c3.append_redirect = 1) (h32 : (c3.pipedex : Int) < c3.appenddex)
    (h33 : c3.input_redirect ≠ 1) (h34 : c3.output_redirect ≠ 1)
    (h35 : cellAt ((command_2 c3.args c3.pipedex).map some)
      (c3.appenddex - (c3.pipedex : Int)) = some f3) :
    ((child1Ops c0).head? = some (FdOp.dupOut Src.pipe_wr) ∧
      (child2Ops c0).head? = some (FdOp.dupIn Src.pipe_rd)) ∧
    applyOps initFds (child1Ops c1) = ⟨Src.file f1, Src.pipe_wr⟩ ∧
    applyOps initFds (child2Ops c2) = ⟨Src.pipe_rd, Src.file f2⟩ ∧
    applyOps initFds (child2Ops c3) = ⟨Src.pipe_rd, Src.file f3⟩ ∧
    applyOps initFds (child2Ops mixedEndpointCmd) =
      ⟨Src.file "out", Src.closed⟩ := by
  have harith2 : c2.outdex - ((c2.pipedex : Int) + 1) + 1 =
      c2.outdex - (c2.pipedex : Int) := by ring
  have harith3 : c3.appenddex - ((c3.pipedex : Int) + 1) + 1 =
      c3.appenddex - (c3.pipedex : Int) := by ring
  refine ⟨⟨rfl, rfl⟩, ?_, ?_, ?_, by decide⟩
  · unfold child1Ops redirectOps
    simp [h11, h12, h13, h14, h15, applyOps, applyOp, initFds, openSrc]
  · unfold child2Ops child2Run redirectOps
    simp [h21, h22, h23, h24, harith2, h25, applyOps, applyOp, initFds, openSrc]
  · unfold child2Ops child2Run redirectOps
    simp [h31, h32, h33, h34, harith3, h35, applyOps, applyOp, initFds, openSrc]

/-- Witness for C6 amended: `cat < in | wc` for the input-only first child,
`a | b > o` for the output-only second child, `a | b >> o2` for the
append-only second child, and the mixed `cat < in | wc > out` breakage. -/
theorem redirect_after_pipe_dup_endpoint_effects_witness :
    ((child1Ops mixedEndpointCmd).head? = some (FdOp.dupOut Src.pipe_wr) ∧
      (child2Ops mixedEndpointCmd).head? = some (FdOp.dupIn Src.pipe_rd)) ∧
    applyOps initFds
        (child1Ops ⟨["cat", "<", "in", "|", "wc"], 0, 1, 0, 0, 1, -1, -1, 1, 3⟩) =
      ⟨Src.file "in", Src.pipe_wr⟩ ∧
    applyOps initFds (child2Ops pipeOutRedirCmd) =
      ⟨Src.pipe_rd, Src.file "o"⟩ ∧
    applyOps initFds
        (child2Ops ⟨["a", "|", "b", ">>", "o2"], 0, 0, 0, 1, -1, -1, 3, 1, 1⟩) =
      ⟨Src.pipe_rd, Src.file "o2"⟩ ∧
    applyOps initFds (child2Ops mixedEndpointCmd) =
      ⟨Src.file "out", Src.closed⟩ :=
  redirect_after_pipe_dup_endpoint_effects
    mixedEndpointCmd
    ⟨["cat", "<", "in", "|", "wc"], 0, 1, 0, 0, 1, -1, -1, 1, 3⟩
    pipeOutRedirCmd
    ⟨["a", "|", "b", ">>", "o2"], 0, 0, 0, 1, -1, -1, 3, 1, 1⟩
    "in" "o" "o2"
    (by decide) (by decide) (by decide) (by decide) (by decide)
    (by decide) (by decide) (by decide) (by decide) (by decide)
    (by decide) (by decide) (by decide) (by decide) (by decide)

/-! ## Deep-copy isolation of the queued argument vector (C4) -/

/-- Reading below the old length is unaffected by heap growth. -/
theorem readH_append_of_lt (h l : Heap) (a : Nat) (ha : a < h.length) :
    readH (h ++ l) a = readH h a := by
  unfold readH
  exact List.getD_append h l "" a ha

/-- Reading the cell allocated at the old end of the heap. -/
theorem readH_concat_length (h : Heap) (v : String) :
    readH (h ++ [v]) h.length = v := by
  unfold readH
  rw [List.getD_append_right h [v] "" h.length le_rfl, Nat.sub_self]
  rfl

/-- Writing one cell does not change reads of other cells. -/
theorem readH_writeH_ne (h : Heap) (a b : Nat) (v : String) (hne : a ≠ b) :
    readH (writeH h a v) b = readH h b := by
  unfold readH writeH
  rw [List.getD_eq_getD_get?, List.getD_eq_getD_get?, List.get?_eq_getElem?,
    List.get?_eq_getElem?, List.getElem?_set_ne hne]

/-- The copy loop only grows the heap. -/
theorem deepCopyArgs_heap_grows (as : List Nat) :
    ∀ h : Heap, h.length ≤ (deepCopyArgs h as).1.length := by
  induction as with
  | nil => intro h; exact le_rfl
  | cons a as ih =>
    intro h
    calc h.length ≤ (h ++ [readH h a]).length := by simp
      _ ≤ (deepCopyArgs (h ++ [readH h a]) as).1.length := ih _

/-- Reads of pre-existing cells are unchanged by the copy loop. -/
theorem deepCopyArgs_read_old (as : List Nat) :
    ∀ (h : Heap) (a : Nat), a < h.length →
      readH (deepCopyArgs h as).1 a = readH h a := by
  induction as with
  | nil => intro h a _; rfl
  | cons a0 as ih =>
    intro h a ha
    have ha2 : a < (h ++ [readH h a0]).length := by
      simp only [List.length_append, List.length_cons, List.length_nil]
      omega
    calc readH (deepCopyArgs (h ++ [readH h a0]) as).1 a
        = readH (h ++ [readH h a0]) a := ih _ a ha2
      _ = readH h a := readH_append_of_lt h _ a ha

/-- Every pointer produced by the copy loop is fresh: at or above the old
heap boundary. -/
theorem deepCopyArgs_fresh (as : List Nat) :
    ∀ (h : Heap) (b : Nat), b ∈ (deepCopyArgs h as).2 → h.length ≤ b := by
  induction as with
  | nil => intro h b hb; simp [deepCopyArgs] at hb
  | cons a0 as ih =>
    intro h b hb
    simp only [deepCopyArgs, strdupH] at hb
    rcases List.mem_cons.mp hb with rfl | hb
    · exact le_rfl
    · have hb2 := ih (h ++ [readH h a0]) b hb
      simp only [List.length_append, List.length_cons, List.length_nil] at hb2
      omega

/-- The values reachable through the copied pointers equal the values
reachable through the caller's pointers at copy time. -/
theorem deepCopyArgs_reads (as : List Nat) :
    ∀ h : Heap, (∀ a ∈ as, a < h.length) →
      (deepCopyArgs h as).2.map (readH (deepCopyArgs h as).1) =
        as.map (readH h) := by
  induction as with
  | nil => intro h _; rfl
  | cons a0 as ih =>
    intro h hv
    have ha0 : a0 < h.length := hv a0 (List.mem_cons_self a0 as)
    have hv2 : ∀ a ∈ as, a < (h ++ [readH h a0]).length := by
      intro a ha
      have hlt := hv a (List.mem_cons_of_mem a0 ha)
      simp only [List.length_append, List.length_cons, List.length_nil]
      omega
    simp only [deepCopyArgs, strdupH, List.map_cons]
    congr 1
    · calc readH (deepCopyArgs (h ++ [readH h a0]) as).1 h.length
          = readH (h ++ [readH h a0]) h.length := by
            refine deepCopyArgs_read_old as _ h.length ?_
            simp
        _ = readH h a0 := readH_concat_length h (readH h a0)
    · calc (deepCopyArgs (h ++ [readH h a0]) as).2.map
            (readH (deepCopyArgs (h ++ [readH h a0]) as).1)
          = as.map (readH (h ++ [readH h a0])) := ih _ hv2
        _ = as.map (readH h) := by
            refine List.map_congr_left ?_
            intro a ha
            exact readH_append_of_lt h _ a (hv a (List.mem_cons_of_mem a0 ha))

/-- C4: `enqueue` takes a full deep copy of the argument vector: the queued
pointers resolve to the same string values as the caller's vector did at
enqueue time, and they still do after ANY subsequent write through a
caller-owned (pre-existing) pointer — mutating or reusing the caller's buffer
cannot change the queued entry. -/
theorem enqueue_deep_copy_isolated (h : Heap) (as : List Nat)
    (hv : ∀ a ∈ as, a < h.length) (a : Nat) (v : String)
    (ha : a < h.length) :
    (deepCopyArgs h as).2.map (readH (deepCopyArgs h as).1) =
      as.map (readH h) ∧
    (deepCopyArgs h as).2.map (readH (writeH (deepCopyArgs h as).1 a v)) =
      as.map (readH h) := by
  refine ⟨deepCopyArgs_reads as h hv, ?_⟩
  have hstep :
      (deepCopyArgs h as).2.map (readH (writeH (deepCopyArgs h as).1 a v)) =
        (deepCopyArgs h as).2.map (readH (deepCopyArgs h as).1) := by
    refine List.map_congr_left ?_
    intro b hb
    have hfresh : h.length ≤ b := deepCopyArgs_fresh as h b hb
    have hab : a ≠ b := by omega
    exact readH_writeH_ne _ a b v hab
  rw [hstep, deepCopyArgs_reads as h hv]

/-- Witness for C4: copy `["echo", "hi"]` (addresses 0, 1), then clobber the
caller's cell 0; the queued reads still give the original values. -/
theorem enqueue_deep_copy_isolated_witness :
    (deepCopyArgs ["echo", "hi"] [0, 1]).2.map
        (readH (deepCopyArgs ["echo", "hi"] [0, 1]).1) =
      ([0, 1] : List Nat).map (readH ["echo", "hi"]) ∧
    (deepCopyArgs ["echo", "hi"] [0, 1]).2.map
        (readH (writeH (deepCopyArgs ["echo", "hi"] [0, 1]).1 0 "clobber")) =
      ([0, 1] : List Nat).map (readH ["echo", "hi"]) :=
  enqueue_deep_copy_isolated ["echo", "hi"] [0, 1] (by decide) 0 "clobber"
    (by decide)

/-- C9: evaluating the copy result for a 2-token command — the cell at index 2
(right after the last copied token) is still uninitialized `malloc` memory,
not a NULL terminator, and the whole 64-cell array contains no NULL
terminator at all for the consumers (the poller free loop, `execvp`) to stop
at. -/
theorem queued_args_no_null_terminator :
    (freshArgArray 0 2).get? 2 = some ArgCell.uninit ∧
    ArgCell.uninit ≠ ArgCell.nullp ∧
    nullTerminatorIdx (freshArgArray 0 2) = none := by decide

end Seashell
